import Mathlib

/-!
# Verification of the Mobius strip surface-geometry engine

Shallow embedding of `mobius_strip.py` in exact real arithmetic.

The Python class `MobiusStrip` stores a configuration `(R, w, n)`, builds a
uniform parameter grid `u = linspace(0, 2*pi, n)`, `v = linspace(-w/2, w/2, n)`,
expands it with `meshgrid` to `U, V` with `U[i,j] = u[j]`, `V[i,j] = v[i]`,
and computes the surface point arrays `X, Y, Z`.  The methods `surface_area`
(numpy `gradient` tangents, cross product, `scipy.integrate.simps` over `v`
then `u`) and `edge_length` (piecewise-linear length of the two boundary rows)
are modelled below; arrays become functions `Nat -> Real` and machine floats
become exact reals.
-/

noncomputable section

open Real Finset

/-- Embedding of `numpy.linspace(a, b, n)` at index `k`: `n` evenly spaced
samples from `a` to `b` inclusive; a single sample (or none) degenerates to
the start point `a`. -/
def linspace (a b : ℝ) (n : ℕ) (k : ℕ) : ℝ :=
  if n ≤ 1 then a else a + k * ((b - a) / ((n : ℝ) - 1))

/-- Embedding of `numpy.gradient` (default `edge_order=1`) of a length-`n`
sample sequence `f`: one-sided differences at the two boundary indices,
central differences (divided by 2) in the interior. -/
def npGradient (f : ℕ → ℝ) (n : ℕ) (k : ℕ) : ℝ :=
  if k = 0 then f 1 - f 0
  else if k = n - 1 then f (n - 1) - f (n - 2)
  else (f (k + 1) - f (k - 1)) / 2

/-- One three-point term of `scipy.integrate._basic_simpson` with sample
abscissae `x`: the quadratic-fit quadrature over `[x i, x (i+2)]`. -/
def simpsonTerm (y x : ℕ → ℝ) (i : ℕ) : ℝ :=
  let h0 := x (i + 1) - x i
  let h1 := x (i + 2) - x (i + 1)
  (h0 + h1) / 6 *
    (y i * (2 - h1 / h0) + y (i + 1) * ((h0 + h1) ^ 2 / (h0 * h1)) +
      y (i + 2) * (2 - h0 / h1))

/-- Embedding of `scipy.integrate._basic_simpson`: the sum of `pairs`
three-point Simpson terms starting at sample index `start`. -/
def basicSimpson (y x : ℕ → ℝ) (start pairs : ℕ) : ℝ :=
  ∑ k in Finset.range pairs, simpsonTerm y x (start + 2 * k)

/-- Embedding of `scipy.integrate.simps(y, x)` on `N` samples (the default
`even='avg'` behaviour): composite Simpson for an odd sample count; for an
even sample count, the average of Simpson on the first `N-1` samples plus a
trapezoid on the last interval and Simpson on the last `N-1` samples plus a
trapezoid on the first interval. -/
def simps (y x : ℕ → ℝ) (N : ℕ) : ℝ :=
  if N % 2 = 1 then
    basicSimpson y x 0 ((N - 1) / 2)
  else
    let trapLast := (x (N - 1) - x (N - 2)) * (y (N - 1) + y (N - 2)) / 2
    let trapFirst := (x 1 - x 0) * (y 1 + y 0) / 2
    let simpFirst := basicSimpson y x 0 ((N - 2) / 2)
    let simpLast := basicSimpson y x 1 ((N - 2) / 2)
    (simpFirst + simpLast) / 2 + (trapLast + trapFirst) / 2

/-- The state of a `MobiusStrip` instance: the configuration fields and the
grid and point arrays assigned in `__init__`. -/
structure MobiusStrip where
  R : ℝ
  w : ℝ
  n : ℕ
  u : ℕ → ℝ
  v : ℕ → ℝ
  U : ℕ → ℕ → ℝ
  V : ℕ → ℕ → ℝ
  X : ℕ → ℕ → ℝ
  Y : ℕ → ℕ → ℝ
  Z : ℕ → ℕ → ℝ

namespace MobiusStrip

/-- Embedding of `MobiusStrip._compute_points`: the parametric surface
equations applied elementwise to the meshed grid. -/
def compute_points (R : ℝ) (U V : ℕ → ℕ → ℝ) :
    (ℕ → ℕ → ℝ) × (ℕ → ℕ → ℝ) × (ℕ → ℕ → ℝ) :=
  (fun i j => (R + V i j * Real.cos (U i j / 2)) * Real.cos (U i j),
   fun i j => (R + V i j * Real.cos (U i j / 2)) * Real.sin (U i j),
   fun i j => V i j * Real.sin (U i j / 2))

/-- Embedding of `MobiusStrip.__init__(R, w, n)`: stores the configuration,
builds `u`, `v` by `linspace`, meshes them (`U[i,j] = u[j]`, `V[i,j] = v[i]`)
and computes the point arrays.  The Python constructor performs no
validation of `R`, `w` or `n`, so the embedding is a total function. -/
def init (R w : ℝ) (n : ℕ) : MobiusStrip :=
  let u := linspace 0 (2 * Real.pi) n
  let v := linspace (-w / 2) (w / 2) n
  let U := fun _ j => u j
  let V := fun i _ => v i
  let P := compute_points R U V
  ⟨R, w, n, u, v, U, V, P.1, P.2.1, P.2.2⟩

/-- The area-element density `dA` of `MobiusStrip.surface_area`: numpy
gradients along the `u` axis (axis 1) and the `v` axis (axis 0), scaled by
`1/du` and `1/dv`, crossed componentwise, and the Euclidean magnitude
taken. -/
def dA (s : MobiusStrip) (i j : ℕ) : ℝ :=
  let du := s.u 1 - s.u 0
  let dv := s.v 1 - s.v 0
  let Xu := npGradient (fun k => s.X i k) s.n j / du
  let Yu := npGradient (fun k => s.Y i k) s.n j / du
  let Zu := npGradient (fun k => s.Z i k) s.n j / du
  let Xv := npGradient (fun k => s.X k j) s.n i / dv
  let Yv := npGradient (fun k => s.Y k j) s.n i / dv
  let Zv := npGradient (fun k => s.Z k j) s.n i / dv
  let Nx := Yu * Zv - Zu * Yv
  let Ny := Zu * Xv - Xu * Zv
  let Nz := Xu * Yv - Yu * Xv
  Real.sqrt (Nx ^ 2 + Ny ^ 2 + Nz ^ 2)

/-- The inner integration of `MobiusStrip.surface_area`:
`simps(dA, self.v, axis=0)`, i.e. for each fixed column `j` the quadrature of
`i ↦ dA i j` against the `v` samples. -/
def area_v (s : MobiusStrip) (j : ℕ) : ℝ :=
  simps (fun i => dA s i j) s.v s.n

/-- Embedding of `MobiusStrip.surface_area`: the outer quadrature
`simps(area_v, self.u)` of the per-column integrals against the `u`
samples. -/
def surface_area (s : MobiusStrip) : ℝ :=
  simps (fun j => area_v s j) s.u s.n

/-- The length of one boundary row `r` of the grid, as summed by
`MobiusStrip.edge_length`: Euclidean norms of consecutive point differences
along the row, `n - 1` open-polyline segments with no closing segment. -/
def edge_row (s : MobiusStrip) (r : ℕ) : ℝ :=
  ∑ j in Finset.range (s.n - 1),
    Real.sqrt ((s.X r (j + 1) - s.X r j) ^ 2 + (s.Y r (j + 1) - s.Y r j) ^ 2 +
      (s.Z r (j + 1) - s.Z r j) ^ 2)

/-- Embedding of `MobiusStrip.edge_length`: the loop `for v_idx in [0, -1]`
adds the polyline length of row `0` and of row `n - 1`. -/
def edge_length (s : MobiusStrip) : ℝ :=
  edge_row s 0 + edge_row s (s.n - 1)

/-- The method call `surface_area()` as a state transformer: the body only
reads `self` (no attribute assignment occurs in the source), so the state
component is returned unchanged alongside the value. -/
def surface_area_call (s : MobiusStrip) : MobiusStrip × ℝ :=
  (s, surface_area s)

/-- The method call `edge_length()` as a state transformer: the body only
reads `self` (no attribute assignment occurs in the source), so the state
component is returned unchanged alongside the value. -/
def edge_length_call (s : MobiusStrip) : MobiusStrip × ℝ :=
  (s, edge_length s)

/-- The derivative-estimation policy as worded in the specification: central
differences in the interior, one-sided differences at the two boundary
indices, each scaled by the reciprocal spacing `1/h` (for the interior this
gives a denominator `2*h`). -/
def specDeriv (f : ℕ → ℝ) (n : ℕ) (h : ℝ) (k : ℕ) : ℝ :=
  if k = 0 then (f 1 - f 0) / h
  else if k = n - 1 then (f (n - 1) - f (n - 2)) / h
  else (f (k + 1) - f (k - 1)) / (2 * h)

/-- The area-element density as worded in the specification: six tangent
arrays by the `specDeriv` policy, the componentwise cross product
`Nx = Yu*Zv - Zu*Yv`, `Ny = Zu*Xv - Xu*Zv`, `Nz = Xu*Yv - Yu*Xv`, and
`dA = sqrt(Nx^2 + Ny^2 + Nz^2)`. -/
def dA_spec (s : MobiusStrip) (i j : ℕ) : ℝ :=
  let du := s.u 1 - s.u 0
  let dv := s.v 1 - s.v 0
  let Xu := specDeriv (fun k => s.X i k) s.n du j
  let Yu := specDeriv (fun k => s.Y i k) s.n du j
  let Zu := specDeriv (fun k => s.Z i k) s.n du j
  let Xv := specDeriv (fun k => s.X k j) s.n dv i
  let Yv := specDeriv (fun k => s.Y k j) s.n dv i
  let Zv := specDeriv (fun k => s.Z k j) s.n dv i
  let Nx := Yu * Zv - Zu * Yv
  let Ny := Zu * Xv - Xu * Zv
  let Nz := Xu * Yv - Yu * Xv
  Real.sqrt (Nx ^ 2 + Ny ^ 2 + Nz ^ 2)

/-- The inner integration step as worded in the specification: integrate the
density over `v` along each fixed-`u` column, with the quadrature rule shared
with the outer step. -/
def area_v_spec (s : MobiusStrip) (j : ℕ) : ℝ :=
  simps (fun i => dA_spec s i j) s.v s.n

/-- The whole area algorithm as worded in the specification: the per-column
integrals integrated over `u` with the same quadrature rule. -/
def surface_area_spec (s : MobiusStrip) : ℝ :=
  simps (fun j => area_v_spec s j) s.u s.n

/-- Euclidean distance of two 3D points given as nested pairs. -/
def dist3 (p q : ℝ × ℝ × ℝ) : ℝ :=
  Real.sqrt ((p.1 - q.1) ^ 2 + (p.2.1 - q.2.1) ^ 2 + (p.2.2 - q.2.2) ^ 2)

/-- The 3D surface point stored at grid cell `(i, j)`. -/
def point (s : MobiusStrip) (i j : ℕ) : ℝ × ℝ × ℝ :=
  (s.X i j, s.Y i j, s.Z i j)

/-- The edge-length algorithm as worded in the specification: for each of
the two boundary rows, the sum of Euclidean norms of consecutive point
differences in increasing `u` order, with no closing segment. -/
def edge_length_spec (s : MobiusStrip) : ℝ :=
  (∑ j in Finset.range (s.n - 1), dist3 (point s 0 (j + 1)) (point s 0 j)) +
    (∑ j in Finset.range (s.n - 1),
      dist3 (point s (s.n - 1) (j + 1)) (point s (s.n - 1) j))

end MobiusStrip

open MobiusStrip

/-! ## Basic facts about the grid -/

theorem linspace_zero (a b : ℝ) (n : ℕ) : linspace a b n 0 = a := by
  unfold linspace
  split <;> simp

theorem linspace_apply (a b : ℝ) {n : ℕ} (hn : 2 ≤ n) (k : ℕ) :
    linspace a b n k = a + k * ((b - a) / ((n : ℝ) - 1)) := by
  unfold linspace
  rw [if_neg (by omega)]

theorem linspace_step (a b : ℝ) {n : ℕ} (hn : 2 ≤ n) (k : ℕ) :
    linspace a b n (k + 1) - linspace a b n k = (b - a) / ((n : ℝ) - 1) := by
  rw [linspace_apply a b hn, linspace_apply a b hn]
  push_cast
  ring

theorem cast_n_sub_one {n : ℕ} (hn : 2 ≤ n) : ((n - 1 : ℕ) : ℝ) = (n : ℝ) - 1 := by
  rw [Nat.cast_sub (by omega), Nat.cast_one]

theorem n_sub_one_ne_zero {n : ℕ} (hn : 2 ≤ n) : ((n : ℝ) - 1) ≠ 0 := by
  have h2 : (2 : ℝ) ≤ (n : ℝ) := by exact_mod_cast hn
  linarith

theorem linspace_last (a b : ℝ) {n : ℕ} (hn : 2 ≤ n) : linspace a b n (n - 1) = b := by
  rw [linspace_apply a b hn, cast_n_sub_one hn]
  have ht := n_sub_one_ne_zero hn
  field_simp

theorem linspace_reflect (c : ℝ) {n : ℕ} (hn : 2 ≤ n) {i : ℕ} (hi : i < n) :
    linspace (-c / 2) (c / 2) n (n - 1 - i) = -linspace (-c / 2) (c / 2) n i := by
  rw [linspace_apply _ _ hn, linspace_apply _ _ hn]
  have h1 : ((n - 1 - i : ℕ) : ℝ) = (n : ℝ) - 1 - i := by
    rw [Nat.cast_sub (by omega), cast_n_sub_one hn]
  rw [h1]
  have ht := n_sub_one_ne_zero hn
  field_simp
  ring

theorem init_u (R w : ℝ) (n : ℕ) : (init R w n).u = linspace 0 (2 * Real.pi) n := rfl

theorem init_v (R w : ℝ) (n : ℕ) : (init R w n).v = linspace (-w / 2) (w / 2) n := rfl

theorem init_U (R w : ℝ) (n i j : ℕ) :
    (init R w n).U i j = linspace 0 (2 * Real.pi) n j := rfl

theorem init_V (R w : ℝ) (n i j : ℕ) :
    (init R w n).V i j = linspace (-w / 2) (w / 2) n i := rfl

theorem init_X (R w : ℝ) (n i j : ℕ) :
    (init R w n).X i j =
      (R + linspace (-w / 2) (w / 2) n i *
          Real.cos (linspace 0 (2 * Real.pi) n j / 2)) *
        Real.cos (linspace 0 (2 * Real.pi) n j) := rfl

theorem init_Y (R w : ℝ) (n i j : ℕ) :
    (init R w n).Y i j =
      (R + linspace (-w / 2) (w / 2) n i *
          Real.cos (linspace 0 (2 * Real.pi) n j / 2)) *
        Real.sin (linspace 0 (2 * Real.pi) n j) := rfl

theorem init_Z (R w : ℝ) (n i j : ℕ) :
    (init R w n).Z i j =
      linspace (-w / 2) (w / 2) n i *
        Real.sin (linspace 0 (2 * Real.pi) n j / 2) := rfl

theorem gradient_div_eq_specDeriv (f : ℕ → ℝ) (n : ℕ) (h : ℝ) (k : ℕ) :
    npGradient f n k / h = specDeriv f n h k := by
  unfold npGradient specDeriv
  split_ifs
  · rfl
  · rfl
  · rw [div_div]

theorem dA_eq_dA_spec (s : MobiusStrip) (i j : ℕ) : dA s i j = dA_spec s i j := by
  unfold dA dA_spec
  simp only [gradient_div_eq_specDeriv]

/-! ## The claims -/

/-- C2: for every configuration with `n ≥ 2` and every grid index, the point
arrays of the constructed strip satisfy exactly the Mobius parametric
equations, with the half-angle factor `U/2` preserved exactly. -/
theorem C2_parametric_equations (R w : ℝ) (n : ℕ) (hn : 2 ≤ n) (i j : ℕ) :
    (init R w n).X i j =
      (R + (init R w n).V i j * Real.cos ((init R w n).U i j / 2)) *
        Real.cos ((init R w n).U i j) ∧
    (init R w n).Y i j =
      (R + (init R w n).V i j * Real.cos ((init R w n).U i j / 2)) *
        Real.sin ((init R w n).U i j) ∧
    (init R w n).Z i j = (init R w n).V i j * Real.sin ((init R w n).U i j / 2) :=
  ⟨rfl, rfl, rfl⟩

/-- Witness for C2 at the concrete configuration `R=1`, `w=1`, `n=2` and
index `(0,0)`. -/
theorem C2_parametric_equations_witness :
    2 ≤ 2 ∧
    (init 1 1 2).Z 0 0 = (init 1 1 2).V 0 0 * Real.sin ((init 1 1 2).U 0 0 / 2) :=
  ⟨le_refl 2, (C2_parametric_equations 1 1 2 (le_refl 2) 0 0).2.2⟩

/-- C3: for every valid configuration, the implemented `surface_area` agrees
with the algorithm as worded in the specification: tangent estimation by
central differences in the interior and one-sided differences at the
boundary scaled by the reciprocal spacings, the componentwise cross product,
the density `sqrt(Nx^2 + Ny^2 + Nz^2)`, integration over `v` along each
fixed-`u` column, and integration of the result over `u` with the same
quadrature rule. -/
theorem C3_surface_area_algorithm (R w : ℝ) (n : ℕ) (hR : 0 < R) (hw : 0 < w)
    (hn : 2 ≤ n) :
    surface_area (init R w n) = surface_area_spec (init R w n) := by
  unfold surface_area surface_area_spec area_v area_v_spec
  simp only [dA_eq_dA_spec]

/-- Witness for C3 at the concrete configuration `R=1`, `w=1`, `n=3`. -/
theorem C3_surface_area_algorithm_witness :
    (0 : ℝ) < 1 ∧ 2 ≤ 3 ∧
    surface_area (init 1 1 3) = surface_area_spec (init 1 1 3) :=
  ⟨one_pos, by omega,
    C3_surface_area_algorithm 1 1 3 one_pos one_pos (by omega)⟩

/-- C4: for every valid configuration, `edge_length` is the sum over the two
boundary rows (row `0` at `v = -w/2` and row `n-1` at `v = +w/2`) of the
Euclidean norms of consecutive point differences in increasing `u` order,
with no closing segment back to the first point of either row. -/
theorem C4_edge_length_boundary_polylines (R w : ℝ) (n : ℕ) (hn : 2 ≤ n) :
    edge_length (init R w n) = edge_length_spec (init R w n) ∧
    (∀ j, (init R w n).V 0 j = -w / 2 ∧ (init R w n).V (n - 1) j = w / 2) := by
  refine ⟨rfl, fun j => ⟨?_, ?_⟩⟩
  · exact linspace_zero (-w / 2) (w / 2) n
  · exact linspace_last (-w / 2) (w / 2) hn

/-- Witness for C4 at the concrete configuration `R=1`, `w=1`, `n=2`. -/
theorem C4_edge_length_boundary_polylines_witness :
    2 ≤ 2 ∧ edge_length (init 1 1 2) = edge_length_spec (init 1 1 2) :=
  ⟨le_refl 2, (C4_edge_length_boundary_polylines 1 1 2 (le_refl 2)).1⟩

/-- C5: for every configuration with `n ≥ 2`, the grid has `u` running from
`0` to `2*pi` inclusive, `v` running from `-w/2` to `w/2` inclusive, mesh
expansion `U[i,j] = u[j]`, `V[i,j] = v[i]`, and constant spacings
`u[j+1]-u[j] = 2*pi/(n-1)` and `v[i+1]-v[i] = w/(n-1)`. -/
theorem C5_grid_construction (R w : ℝ) (n : ℕ) (hn : 2 ≤ n) :
    (init R w n).u 0 = 0 ∧ (init R w n).u (n - 1) = 2 * Real.pi ∧
    (init R w n).v 0 = -w / 2 ∧ (init R w n).v (n - 1) = w / 2 ∧
    (∀ i j, (init R w n).U i j = (init R w n).u j ∧
      (init R w n).V i j = (init R w n).v i) ∧
    (∀ j, (init R w n).u (j + 1) - (init R w n).u j = 2 * Real.pi / ((n : ℝ) - 1)) ∧
    (∀ i, (init R w n).v (i + 1) - (init R w n).v i = w / ((n : ℝ) - 1)) := by
  refine ⟨linspace_zero 0 (2 * Real.pi) n, linspace_last 0 (2 * Real.pi) hn,
    linspace_zero (-w / 2) (w / 2) n, linspace_last (-w / 2) (w / 2) hn,
    fun i j => ⟨rfl, rfl⟩, fun j => ?_, fun i => ?_⟩
  · rw [init_u, linspace_step 0 (2 * Real.pi) hn, sub_zero]
  · rw [init_v, linspace_step (-w / 2) (w / 2) hn]
    ring

/-- Witness for C5 at the concrete configuration `R=1`, `w=1`, `n=2`. -/
theorem C5_grid_construction_witness :
    2 ≤ 2 ∧ (init 1 1 2).u (2 - 1) = 2 * Real.pi :=
  ⟨le_refl 2, (C5_grid_construction 1 1 2 (le_refl 2)).2.1⟩

/-- C8: the two query methods are side-effect-free: each state-transformer
call returns the instance state unchanged (so every field `R, w, n, u, v, U,
V, X, Y, Z` is unchanged), and a repeated call on the returned state yields
the same value. -/
theorem C8_queries_side_effect_free (s : MobiusStrip) :
    (surface_area_call s).1 = s ∧ (edge_length_call s).1 = s ∧
    (surface_area_call ((surface_area_call s).1)).2 = (surface_area_call s).2 ∧
    (edge_length_call ((edge_length_call s).1)).2 = (edge_length_call s).2 :=
  ⟨rfl, rfl, rfl, rfl⟩

/-- C1 counterexample: the constructor contains no validation, so the
invalid configuration `R=1`, `w=1`, `n=1` (which has `n < 2`) does not fail:
the grid and the point arrays are produced, with `u[0] = 0` and
`X[0,0] = (1 + (-1/2)*cos 0)*cos 0 = 1/2`. -/
theorem C1_counterexample :
    (init 1 1 1).u 0 = 0 ∧ (init 1 1 1).X 0 0 = 1 / 2 := by
  constructor
  · rw [init_u, linspace_zero]
  · rw [init_X]
    unfold linspace
    norm_num

/-- C1 amended: construction performs no validation at all: even when
`R ≤ 0`, `w ≤ 0` or `n < 2`, no `InvalidConfig` failure occurs — the
constructor is total and the grid and point arrays are computed by the
usual formulas. -/
theorem C1_no_validation (R w : ℝ) (n : ℕ) (h : R ≤ 0 ∨ w ≤ 0 ∨ n < 2) (i j : ℕ) :
    (init R w n).u j = linspace 0 (2 * Real.pi) n j ∧
    (init R w n).v i = linspace (-w / 2) (w / 2) n i ∧
    (init R w n).X i j =
      (R + (init R w n).V i j * Real.cos ((init R w n).U i j / 2)) *
        Real.cos ((init R w n).U i j) :=
  ⟨rfl, rfl, rfl⟩

/-- Witness for the amended C1 at the invalid configuration `R=1`, `w=1`,
`n=1`. -/
theorem C1_no_validation_witness :
    1 < 2 ∧ (init 1 1 1).u 0 = linspace 0 (2 * Real.pi) 1 0 :=
  ⟨Nat.one_lt_two, (C1_no_validation 1 1 1 (Or.inr (Or.inr Nat.one_lt_two)) 0 0).1⟩

/-- C9: seam identification: for `n ≥ 2` and any row `i < n`, the point in
the last `u`-column equals the point in the first `u`-column at the
reversed row, both being `(R - v[i], 0, 0)` in exact real arithmetic. -/
theorem C9_seam_identification (R w : ℝ) (n : ℕ) (hn : 2 ≤ n) (i : ℕ) (hi : i < n) :
    (init R w n).X i (n - 1) = R - (init R w n).v i ∧
    (init R w n).Y i (n - 1) = 0 ∧
    (init R w n).Z i (n - 1) = 0 ∧
    (init R w n).X (n - 1 - i) 0 = R - (init R w n).v i ∧
    (init R w n).Y (n - 1 - i) 0 = 0 ∧
    (init R w n).Z (n - 1 - i) 0 = 0 := by
  have hu0 : linspace 0 (2 * Real.pi) n 0 = 0 := linspace_zero _ _ _
  have hul : linspace 0 (2 * Real.pi) n (n - 1) = 2 * Real.pi :=
    linspace_last _ _ hn
  have hvr : linspace (-w / 2) (w / 2) n (n - 1 - i) =
      -linspace (-w / 2) (w / 2) n i := linspace_reflect w hn hi
  have hpi : 2 * Real.pi / 2 = Real.pi := by ring
  refine ⟨?_, ?_, ?_, ?_, ?_, ?_⟩
  · rw [init_X, init_v, hul, hpi, Real.cos_pi, Real.cos_two_pi]
    ring
  · rw [init_Y, hul, Real.sin_two_pi, mul_zero]
  · rw [init_Z, hul, hpi, Real.sin_pi, mul_zero]
  · rw [init_X, init_v, hu0, hvr, zero_div, Real.cos_zero]
    ring
  · rw [init_Y, hu0, Real.sin_zero, mul_zero]
  · rw [init_Z, hu0, zero_div, Real.sin_zero, mul_zero]

/-- Witness for C9 at the concrete configuration `R=1`, `w=1`, `n=2`,
row `i=0`. -/
theorem C9_seam_identification_witness :
    2 ≤ 2 ∧ 0 < 2 ∧ (init 1 1 2).Z 0 (2 - 1) = 0 :=
  ⟨le_refl 2, Nat.zero_lt_two,
    (C9_seam_identification 1 1 2 (le_refl 2) 0 Nat.zero_lt_two).2.2.1⟩

/-- C10: Z antisymmetry under width reflection: for `n ≥ 2`, `i < n` and any
column `j`, `Z[n-1-i, j] = -Z[i, j]` in exact real arithmetic, and for odd
`n` the middle row of `Z` is identically zero. -/
theorem C10_Z_antisymmetry (R w : ℝ) (n : ℕ) (hn : 2 ≤ n) (i j : ℕ) (hi : i < n) :
    (init R w n).Z (n - 1 - i) j = -(init R w n).Z i j ∧
    (n % 2 = 1 → (init R w n).Z ((n - 1) / 2) j = 0) := by
  constructor
  · rw [init_Z, init_Z, linspace_reflect w hn hi]
    ring
  · intro hodd
    obtain ⟨m, rfl⟩ : ∃ m, n = 2 * m + 1 := ⟨n / 2, by omega⟩
    have hmeq : (2 * m + 1 - 1) / 2 = m := by omega
    rw [init_Z, hmeq]
    have hm1 : 1 ≤ m := by omega
    have hmne : (m : ℝ) ≠ 0 := by
      have h1 : (1 : ℝ) ≤ (m : ℝ) := by exact_mod_cast hm1
      linarith
    have hvm : linspace (-w / 2) (w / 2) (2 * m + 1) m = 0 := by
      rw [linspace_apply _ _ hn]
      have h2m : ((2 * m + 1 : ℕ) : ℝ) - 1 = 2 * (m : ℝ) := by
        push_cast
        ring
      rw [h2m]
      field_simp
      ring
    rw [hvm, zero_mul]

/-- Witness for C10 at the concrete configuration `R=1`, `w=1`, `n=3`,
index `(0, 0)`. -/
theorem C10_Z_antisymmetry_witness :
    2 ≤ 3 ∧ 0 < 3 ∧ (init 1 1 3).Z (3 - 1 - 0) 0 = -(init 1 1 3).Z 0 0 :=
  ⟨by omega, by omega, (C10_Z_antisymmetry 1 1 3 (by omega) 0 0 (by omega)).1⟩

/-! ## The quadrature on two samples degenerates to the trapezoid rule -/

theorem simps_two (y x : ℕ → ℝ) :
    simps y x 2 = (x 1 - x 0) * (y 1 + y 0) / 2 := by
  unfold simps basicSimpson
  norm_num

/-- C6: for the degenerate grid `n = 2` the quadrature silently falls back
to the trapezoidal rule in both integration passes: the inner pass is a
single trapezoid of the density over `v` for each column, and the outer
pass a single trapezoid of the column integrals over `u`; the operation is
total. -/
theorem C6_trapezoid_fallback (R w : ℝ) (hR : 0 < R) (hw : 0 < w) :
    surface_area (init R w 2) =
      ((init R w 2).u 1 - (init R w 2).u 0) *
        (area_v (init R w 2) 1 + area_v (init R w 2) 0) / 2 ∧
    (∀ j, area_v (init R w 2) j =
      ((init R w 2).v 1 - (init R w 2).v 0) *
        (dA (init R w 2) 1 j + dA (init R w 2) 0 j) / 2) := by
  constructor
  · exact simps_two (fun j => area_v (init R w 2) j) (init R w 2).u
  · intro j
    exact simps_two (fun i => dA (init R w 2) i j) (init R w 2).v

/-- Witness for C6 at the concrete configuration `R=1`, `w=1`. -/
theorem C6_trapezoid_fallback_witness :
    (0 : ℝ) < 1 ∧
    surface_area (init 1 1 2) =
      ((init 1 1 2).u 1 - (init 1 1 2).u 0) *
        (area_v (init 1 1 2) 1 + area_v (init 1 1 2) 0) / 2 :=
  ⟨one_pos, (C6_trapezoid_fallback 1 1 one_pos one_pos).1⟩

/-! ## Nonnegativity of the quadrature on uniformly spaced samples -/

theorem simpsonTerm_nonneg (y x : ℕ → ℝ) (d : ℝ) (hd : 0 ≤ d)
    (hx : ∀ k, x (k + 1) - x k = d) (hy : ∀ k, 0 ≤ y k) (i : ℕ) :
    0 ≤ simpsonTerm y x i := by
  unfold simpsonTerm
  rw [hx i, hx (i + 1)]
  show 0 ≤ (d + d) / 6 *
    (y i * (2 - d / d) + y (i + 1) * ((d + d) ^ 2 / (d * d)) + y (i + 2) * (2 - d / d))
  rcases eq_or_lt_of_le hd with hd0 | hd0
  · rw [← hd0]
    norm_num
  · have hdd : d / d = 1 := div_self (ne_of_gt hd0)
    have h4 : (d + d) ^ 2 / (d * d) = 4 := by
      have hne := ne_of_gt hd0
      field_simp
      ring
    rw [hdd, h4]
    have h1 := hy i
    have h2 := hy (i + 1)
    have h3 := hy (i + 2)
    have hc : 0 ≤ (d + d) / 6 := by positivity
    apply mul_nonneg hc
    nlinarith

theorem basicSimpson_nonneg (y x : ℕ → ℝ) (d : ℝ) (hd : 0 ≤ d)
    (hx : ∀ k, x (k + 1) - x k = d) (hy : ∀ k, 0 ≤ y k) (start pairs : ℕ) :
    0 ≤ basicSimpson y x start pairs := by
  unfold basicSimpson
  exact Finset.sum_nonneg fun k _ => simpsonTerm_nonneg y x d hd hx hy _

theorem simps_nonneg (y x : ℕ → ℝ) (N : ℕ) (d : ℝ) (hd : 0 ≤ d)
    (hx : ∀ k, x (k + 1) - x k = d) (hy : ∀ k, 0 ≤ y k) :
    0 ≤ simps y x N := by
  unfold simps
  split
  · exact basicSimpson_nonneg y x d hd hx hy 0 _
  · show 0 ≤ (basicSimpson y x 0 ((N - 2) / 2) + basicSimpson y x 1 ((N - 2) / 2)) / 2 +
      ((x (N - 1) - x (N - 2)) * (y (N - 1) + y (N - 2)) / 2 +
        (x 1 - x 0) * (y 1 + y 0) / 2) / 2
    have hb1 := basicSimpson_nonneg y x d hd hx hy 0 ((N - 2) / 2)
    have hb2 := basicSimpson_nonneg y x d hd hx hy 1 ((N - 2) / 2)
    have hlast : 0 ≤ x (N - 1) - x (N - 2) := by
      rcases Nat.lt_or_ge N 2 with hN | hN
      · interval_cases N <;> simp
      · have he : N - 1 = (N - 2) + 1 := by omega
        rw [he, hx (N - 2)]
        exact hd
    have hfirst : 0 ≤ x 1 - x 0 := by
      have := hx 0
      rw [show (0 : ℕ) + 1 = 1 from rfl] at this
      rw [this]
      exact hd
    have ht1 : 0 ≤ (x (N - 1) - x (N - 2)) * (y (N - 1) + y (N - 2)) / 2 := by
      apply div_nonneg _ (by norm_num)
      exact mul_nonneg hlast (add_nonneg (hy _) (hy _))
    have ht2 : 0 ≤ (x 1 - x 0) * (y 1 + y 0) / 2 := by
      apply div_nonneg _ (by norm_num)
      exact mul_nonneg hfirst (add_nonneg (hy _) (hy _))
    positivity

theorem dA_nonneg (s : MobiusStrip) (i j : ℕ) : 0 ≤ dA s i j :=
  Real.sqrt_nonneg _

theorem linspace_two_one (a b : ℝ) : linspace a b 2 1 = b := by
  have h := linspace_last a b (le_refl 2)
  norm_num at h
  exact h

theorem npGradient_two (f : ℕ → ℝ) (k : ℕ) (hk : k < 2) :
    npGradient f 2 k = f 1 - f 0 := by
  unfold npGradient
  interval_cases k
  · rw [if_pos rfl]
  · norm_num

theorem area_v_nonneg (R w : ℝ) (n : ℕ) (hw : 0 < w) (hn : 2 ≤ n) (j : ℕ) :
    0 ≤ area_v (init R w n) j := by
  unfold area_v
  apply simps_nonneg _ _ _ ((w / 2 - -w / 2) / ((n : ℝ) - 1))
  · apply div_nonneg
    · linarith
    · have h2 : (2 : ℝ) ≤ (n : ℝ) := by exact_mod_cast hn
      linarith
  · intro k
    rw [init_v]
    exact linspace_step (-w / 2) (w / 2) hn k
  · intro k
    exact dA_nonneg _ _ _

theorem surface_area_nonneg (R w : ℝ) (n : ℕ) (hw : 0 < w) (hn : 2 ≤ n) :
    0 ≤ surface_area (init R w n) := by
  unfold surface_area
  apply simps_nonneg _ _ _ ((2 * Real.pi - 0) / ((n : ℝ) - 1))
  · apply div_nonneg
    · have := Real.pi_pos
      linarith
    · have h2 : (2 : ℝ) ≤ (n : ℝ) := by exact_mod_cast hn
      linarith
  · intro k
    rw [init_u]
    exact linspace_step 0 (2 * Real.pi) hn k
  · intro k
    exact area_v_nonneg R w n hw hn k

theorem first_segment_sq_pos (R w : ℝ) (n : ℕ) (hR : 0 < R) (hw : 0 < w)
    (hn : 2 ≤ n) :
    0 < ((init R w n).X 0 1 - (init R w n).X 0 0) ^ 2 +
      ((init R w n).Y 0 1 - (init R w n).Y 0 0) ^ 2 +
      ((init R w n).Z 0 1 - (init R w n).Z 0 0) ^ 2 := by
  rcases Nat.lt_or_ge n 3 with h3 | h3
  · have hn2 : n = 2 := by omega
    subst hn2
    have hX : (init R w 2).X 0 1 - (init R w 2).X 0 0 = w := by
      rw [init_X, init_X, linspace_two_one 0 (2 * Real.pi),
        linspace_zero 0 (2 * Real.pi) 2, linspace_zero (-w / 2) (w / 2) 2,
        show 2 * Real.pi / 2 = Real.pi by ring, Real.cos_pi, Real.cos_two_pi,
        zero_div, Real.cos_zero]
      ring
    rw [hX]
    have h1 : 0 < w ^ 2 := pow_pos hw 2
    have h2 : 0 ≤ ((init R w 2).Y 0 1 - (init R w 2).Y 0 0) ^ 2 := sq_nonneg _
    have hz : 0 ≤ ((init R w 2).Z 0 1 - (init R w 2).Z 0 0) ^ 2 := sq_nonneg _
    linarith
  · have ht2 : (2 : ℝ) ≤ (n : ℝ) - 1 := by
      have h3r : (3 : ℝ) ≤ (n : ℝ) := by exact_mod_cast h3
      linarith
    have hZ : (init R w n).Z 0 1 - (init R w n).Z 0 0 =
        -(w / 2) * Real.sin (Real.pi / ((n : ℝ) - 1)) := by
      rw [init_Z, init_Z, linspace_zero (-w / 2) (w / 2) n,
        linspace_zero 0 (2 * Real.pi) n, linspace_apply 0 (2 * Real.pi) hn 1,
        zero_div, Real.sin_zero, mul_zero, sub_zero]
      have harg : (0 + ((1 : ℕ) : ℝ) * ((2 * Real.pi - 0) / ((n : ℝ) - 1))) / 2 =
          Real.pi / ((n : ℝ) - 1) := by
        push_cast
        ring
      rw [harg]
      ring
    have hsin : 0 < Real.sin (Real.pi / ((n : ℝ) - 1)) := by
      apply Real.sin_pos_of_pos_of_lt_pi
      · apply div_pos Real.pi_pos
        linarith
      · rw [div_lt_iff₀ (by linarith : (0 : ℝ) < (n : ℝ) - 1)]
        nlinarith [Real.pi_pos]
    have hzne : (init R w n).Z 0 1 - (init R w n).Z 0 0 ≠ 0 := by
      rw [hZ]
      apply mul_ne_zero
      · apply neg_ne_zero.mpr
        exact div_ne_zero (ne_of_gt hw) two_ne_zero
      · exact ne_of_gt hsin
    have hz2 : 0 < ((init R w n).Z 0 1 - (init R w n).Z 0 0) ^ 2 :=
      pow_two_pos_of_ne_zero hzne
    have h1 : 0 ≤ ((init R w n).X 0 1 - (init R w n).X 0 0) ^ 2 := sq_nonneg _
    have h2 : 0 ≤ ((init R w n).Y 0 1 - (init R w n).Y 0 0) ^ 2 := sq_nonneg _
    linarith

theorem edge_row_ge_first (s : MobiusStrip) (r : ℕ) (h1 : 1 ≤ s.n - 1) :
    Real.sqrt ((s.X r 1 - s.X r 0) ^ 2 + (s.Y r 1 - s.Y r 0) ^ 2 +
      (s.Z r 1 - s.Z r 0) ^ 2) ≤ edge_row s r := by
  unfold edge_row
  have h0mem : 0 ∈ Finset.range (s.n - 1) := Finset.mem_range.mpr (by omega)
  have h := Finset.single_le_sum
    (fun (k : ℕ) (_ : k ∈ Finset.range (s.n - 1)) =>
      Real.sqrt_nonneg ((s.X r (k + 1) - s.X r k) ^ 2 +
        (s.Y r (k + 1) - s.Y r k) ^ 2 + (s.Z r (k + 1) - s.Z r k) ^ 2))
    h0mem
  simpa using h

theorem edge_row_nonneg (s : MobiusStrip) (r : ℕ) : 0 ≤ edge_row s r := by
  unfold edge_row
  exact Finset.sum_nonneg fun k _ => Real.sqrt_nonneg _

theorem edge_length_pos (R w : ℝ) (n : ℕ) (hR : 0 < R) (hw : 0 < w) (hn : 2 ≤ n) :
    0 < edge_length (init R w n) := by
  have hterm : 0 < Real.sqrt
      (((init R w n).X 0 1 - (init R w n).X 0 0) ^ 2 +
        ((init R w n).Y 0 1 - (init R w n).Y 0 0) ^ 2 +
        ((init R w n).Z 0 1 - (init R w n).Z 0 0) ^ 2) :=
    Real.sqrt_pos.mpr (first_segment_sq_pos R w n hR hw hn)
  have hle := edge_row_ge_first (init R w n) 0 (by omega : 1 ≤ n - 1)
  have hrow2 := edge_row_nonneg (init R w n) ((init R w n).n - 1)
  have h1 := lt_of_lt_of_le hterm hle
  unfold edge_length
  linarith

/-- C7 counterexample: at the valid configuration `R=1`, `w=1`, `n=2` the
surface area is exactly `0` in exact real arithmetic: every grid value of
`Y` and `Z` vanishes (since `sin 0 = sin pi = sin (2*pi) = 0`), so every
discrete normal vector vanishes and both quadrature passes integrate the
zero density. -/
theorem C7_counterexample : surface_area (init 1 1 2) = 0 := by
  have hu0 : linspace 0 (2 * Real.pi) 2 0 = 0 := linspace_zero _ _ _
  have hu1 : linspace 0 (2 * Real.pi) 2 1 = 2 * Real.pi := linspace_two_one _ _
  have hY : ∀ i j, j < 2 → (init 1 1 2).Y i j = 0 := by
    intro i j hj
    interval_cases j
    · rw [init_Y, hu0, Real.sin_zero, mul_zero]
    · rw [init_Y, hu1, Real.sin_two_pi, mul_zero]
  have hZ : ∀ i j, j < 2 → (init 1 1 2).Z i j = 0 := by
    intro i j hj
    interval_cases j
    · rw [init_Z, hu0, zero_div, Real.sin_zero, mul_zero]
    · rw [init_Z, hu1, show 2 * Real.pi / 2 = Real.pi by ring, Real.sin_pi,
        mul_zero]
  have hdA : ∀ i j, i < 2 → j < 2 → dA (init 1 1 2) i j = 0 := by
    intro i j hi hj
    have hYu : npGradient (fun k => (init 1 1 2).Y i k) 2 j = 0 := by
      rw [npGradient_two _ j hj]
      show (init 1 1 2).Y i 1 - (init 1 1 2).Y i 0 = 0
      rw [hY i 1 one_lt_two, hY i 0 zero_lt_two, sub_zero]
    have hZu : npGradient (fun k => (init 1 1 2).Z i k) 2 j = 0 := by
      rw [npGradient_two _ j hj]
      show (init 1 1 2).Z i 1 - (init 1 1 2).Z i 0 = 0
      rw [hZ i 1 one_lt_two, hZ i 0 zero_lt_two, sub_zero]
    have hYv : npGradient (fun k => (init 1 1 2).Y k j) 2 i = 0 := by
      rw [npGradient_two _ i hi]
      show (init 1 1 2).Y 1 j - (init 1 1 2).Y 0 j = 0
      rw [hY 1 j hj, hY 0 j hj, sub_zero]
    have hZv : npGradient (fun k => (init 1 1 2).Z k j) 2 i = 0 := by
      rw [npGradient_two _ i hi]
      show (init 1 1 2).Z 1 j - (init 1 1 2).Z 0 j = 0
      rw [hZ 1 j hj, hZ 0 j hj, sub_zero]
    unfold dA
    simp only [show (init 1 1 2).n = 2 from rfl, hYu, hZu, hYv, hZv]
    norm_num
  have hav : ∀ j, j < 2 → area_v (init 1 1 2) j = 0 := by
    intro j hj
    unfold area_v
    rw [show (init 1 1 2).n = 2 from rfl]
    simp only [simps_two]
    rw [hdA 1 j one_lt_two hj, hdA 0 j zero_lt_two hj]
    ring
  unfold surface_area
  rw [show (init 1 1 2).n = 2 from rfl]
  simp only [simps_two]
  rw [hav 1 one_lt_two, hav 0 zero_lt_two]
  ring

/-- C7 amended: for every valid configuration `edge_length` is strictly
positive and `surface_area` is nonnegative; strict positivity of the area
fails for the degenerate grid `n = 2`, where it is exactly `0` in exact
arithmetic. -/
theorem C7_positivity (R w : ℝ) (n : ℕ) (hR : 0 < R) (hw : 0 < w) (hn : 2 ≤ n) :
    0 < edge_length (init R w n) ∧ 0 ≤ surface_area (init R w n) :=
  ⟨edge_length_pos R w n hR hw hn, surface_area_nonneg R w n hw hn⟩

/-- Witness for the amended C7 at the concrete configuration `R=1`, `w=1`,
`n=3`. -/
theorem C7_positivity_witness :
    (0 : ℝ) < 1 ∧ 2 ≤ 3 ∧
    (0 < edge_length (init 1 1 3) ∧ 0 ≤ surface_area (init 1 1 3)) :=
  ⟨one_pos, by omega, C7_positivity 1 1 3 one_pos one_pos (by omega)⟩
